import Mathlib

/-!
# Verification of repotxt's `RepoAnalyzerCore`

Shallow embedding of the exclusion-resolution engine, range algebra and
report-structure generator of `src/repoAnalyzerCore.ts` (the newest version of
the class, the one carrying partial selections, stats and the two-phase
structure walk).

Modelling conventions:

* A filesystem path is modelled as the list of its segments **innermost
  first**, so `/a/b/c` becomes `["c", "b", "a"]` and the filesystem root `/`
  becomes `[]`.  `path.dirname` is then `List.tail`, and `dirname p = p` holds
  exactly at the root, matching the walk-termination test `parent === p` in the
  source.  Well-formed segments are nonempty and contain no separator, so the
  string `p1` is a prefix of `p2 + sep`-style tests used by the source
  translate to (strict) segment-list extension tests; each such translation is
  noted at the definition it concerns.
* The source stores rule paths in `Set<string>`s, where a directory is stored
  in dir-marked form `p + path.sep` and a file as plain `p`
  (`addPathToSet`).  A stored element is modelled as a pair
  `(segments, dirMarked)`.  JS `Set` insertion order is kept by using lists;
  membership and deletion ignore multiplicity exactly like the source's
  `has`/`delete` pairs over the two possible spellings of a path.
* `vscode.Selection` values enter the core only through
  `{ start: sel.start.line + 1, end: sel.end.line + 1 }`; a selection is
  modelled by its two 0-based line numbers.
* Line numbers are JS numbers used only integrally; they are modelled as `Int`.
-/

namespace Repotxt

/-- A path: its segments, innermost first; `[]` is the filesystem root. -/
abbrev Path := List String

/-- `type Range = { start: number; end: number }` from the source. -/
structure Range where
  start : Int
  «end» : Int
deriving DecidableEq, Repr

/-- A stored element of one of the three rule sets: the path's segments plus
whether it was stored in dir-marked form (`p + path.sep`) or plain (`p`). -/
abbrev Entry := Path × Bool

/-- The rule-set state of `RepoAnalyzerCore`: `autoExcludes`, `manualIncludes`,
`manualExcludes` (sets of stored path strings) and `partialIncludes` (a `Map`
from file path to its list of ranges, modelled as an association list in
insertion order). -/
structure CoreState where
  autoExcludes : List Entry
  manualIncludes : List Entry
  manualExcludes : List Entry
  partIncludes : List (Path × List Range)
deriving DecidableEq, Repr

/-- `set.has(p) || set.has(p + path.sep)`: some stored element has these
segments, in either spelling.  This is the membership test used by both walks
of `isPathEffectivelyExcluded`. -/
def memPath (s : List Entry) (p : Path) : Bool :=
  s.any (fun e => e.1 == p)

/-- The `check` closure of `isPathEffectivelyExcluded`: walk from the path up
through `path.dirname` ancestors; `manualIncludes` hit gives `false`,
`manualExcludes` hit gives `true`, root without hit gives `null` (`none`). -/
def checkManual (inc exc : List Entry) : Path → Option Bool
  | [] =>
    if memPath inc [] then some false
    else if memPath exc [] then some true
    else none
  | p@(_ :: parent) =>
    if memPath inc p then some false
    else if memPath exc p then some true
    else checkManual inc exc parent

/-- The `autoCheck` closure of `isPathEffectivelyExcluded` combined with the
final `?? false`: walk the same ancestor chain against `autoExcludes`,
returning `true` on the first hit and `false` at the root. -/
def checkAuto (auto : List Entry) : Path → Bool
  | [] => memPath auto []
  | p@(_ :: parent) => memPath auto p || checkAuto auto parent

/-- `isPathEffectivelyExcluded(fullPath)`: the manual ancestor walk decides if
it finds a rule, otherwise the auto ancestor walk decides, defaulting to
included. -/
def isPathEffectivelyExcluded (st : CoreState) (fullPath : Path) : Bool :=
  match checkManual st.manualIncludes st.manualExcludes fullPath with
  | some manualRule => manualRule
  | none => checkAuto st.autoExcludes fullPath

/-- Declarative restatement of the spec's §4.1 algorithm, written from the
spec's words for the refinement proof of C1: `p.tails` is exactly the ancestor
chain `p, dirname p, …, root` (inclusive of `p` itself); the first ancestor
carrying a manual rule decides (include checked before exclude at the same
node); with no manual rule anywhere, the path is excluded iff some ancestor is
in `autoExcludes`, else it is included by default. -/
def specEffectivelyExcluded (st : CoreState) (p : Path) : Bool :=
  match p.tails.findSome? (fun q =>
      if memPath st.manualIncludes q then some false
      else if memPath st.manualExcludes q then some true
      else none) with
  | some manualRule => manualRule
  | none => p.tails.any (fun q => memPath st.autoExcludes q)

/-! ## Manual override store: toggling -/
/-- `removePathFromSet`: `set.delete(fullPath); set.delete(fullPath + path.sep)`
— drop every stored spelling of the path. -/
def removePathFromSet (p : Path) (s : List Entry) : List Entry :=
  s.filter (fun e => !(e.1 == p))

/-- `addPathToSet`: store the path dir-marked when `statSync` reports a
directory, plain otherwise (a failing `statSync` also stores it plain, which
the `fsIsDir = false` case covers). -/
def addPathToSet (isDir : Bool) (p : Path) (s : List Entry) : List Entry :=
  s ++ [(p, isDir)]

/-- The source's `p.startsWith(fullPathWithSep)` test, where `fullPathWithSep`
is the dir-marked form `fullPath + path.sep`, applied to a stored element `e`.
On well-formed segment paths the string `str(e)` starts with
`str(d) + path.sep` exactly when `e`'s segments strictly extend `d`'s, or `e`
is `d` itself stored dir-marked.  For the filesystem root `d = []` the
dir-marked form is `"//"`, which no well-formed stored string starts with, so
the test is `false` there. -/
def startsWithDirForm (d : Path) (e : Entry) : Bool :=
  match d with
  | [] => false
  | _ :: _ => (!(e.1 == d) && d.isSuffixOf e.1) || (e.1 == d && e.2)

/-- The `forEach`/`delete` purge loop of `toggleExclude`: drop from a set every
element whose stored string starts with the toggled directory's dir-marked
form. -/
def purgeStartingWith (d : Path) (s : List Entry) : List Entry :=
  s.filter (fun e => !(startsWithDirForm d e))

/-- `toggleExclude(fullPath)` restricted to its effect on the rule state
(saving, stats events and cache refresh do not touch the rule sets).
`fsIsDir` is the `fs.existsSync && fs.statSync(..).isDirectory()` oracle. -/
def toggleExclude (fsIsDir : Path → Bool) (st : CoreState) (fullPath : Path) :
    CoreState :=
  let isDir := fsIsDir fullPath
  let isCurrentlyExcluded := isPathEffectivelyExcluded st fullPath
  let inc := removePathFromSet fullPath st.manualIncludes
  let exc := removePathFromSet fullPath st.manualExcludes
  if isCurrentlyExcluded then
    { st with
      manualIncludes := addPathToSet isDir fullPath inc
      manualExcludes := if isDir then purgeStartingWith fullPath exc else exc }
  else
    { st with
      manualIncludes := if isDir then purgeStartingWith fullPath inc else inc
      manualExcludes := addPathToSet isDir fullPath exc }

/-- `toggleExcludeMultiple(fullPaths)` applies the same per-path logic to each
path in order (the `affectedParents` bookkeeping does not touch the rule
sets). -/
def toggleExcludeMultiple (fsIsDir : Path → Bool) (st : CoreState)
    (fullPaths : List Path) : CoreState :=
  fullPaths.foldl (toggleExclude fsIsDir) st

/-- `resetExclusions()`: clear both manual sets and all partial selections. -/
def resetExclusions (st : CoreState) : CoreState :=
  { st with manualIncludes := [], manualExcludes := [], partIncludes := [] }

/-! ## C5: disjointness of the manual sets -/
/-- Path-level disjointness of the two manual sets: no path (in either
spelling) is present in both. -/
def manualSetsDisjoint (st : CoreState) : Bool :=
  st.manualIncludes.all (fun e => !(memPath st.manualExcludes e.1))

/-! ## Range algebra -/
/-- The comparator `(a, b) => a.start - b.start` passed to the (stable) JS
`Array.prototype.sort`, as the boolean "a may precede b" relation used by the
stable `List.mergeSort`. -/
def leStart (a b : Range) : Bool :=
  a.start ≤ b.start

/-- The accumulation loop of `mergeRanges` over the sorted tail: a range whose
start is at most `last.end + 1` (overlap or immediate adjacency) is folded into
the accumulated range, extending its end to the max of the two; otherwise the
accumulated range is emitted and the range starts a new accumulation.  Mutating
`merged[merged.length - 1]` in place is modelled by carrying the accumulated
range as an argument, since earlier emitted ranges are never touched again. -/
def mergeLoop (last : Range) : List Range → List Range
  | [] => [last]
  | r :: rs =>
    if r.start ≤ last.«end» + 1 then
      mergeLoop ⟨last.start, max last.«end» r.«end»⟩ rs
    else
      last :: mergeLoop r rs

/-- `mergeRanges(ranges)`: empty input yields empty output; otherwise sort by
start ascending (stable) and fold with `mergeLoop` starting from the first
sorted range. -/
def mergeRanges (ranges : List Range) : List Range :=
  match ranges.mergeSort leStart with
  | [] => []
  | r :: rest => mergeLoop r rest

/-- `subtractRange(r, s)`: remove interval `s` from interval `r`, giving zero,
one or two intervals, by the source's four-way case split. -/
def subtractRange (r s : Range) : List Range :=
  if s.«end» < r.start || s.start > r.«end» then [r]
  else if s.start ≤ r.start && s.«end» ≥ r.«end» then []
  else if s.start > r.start && s.«end» < r.«end» then
    [⟨r.start, s.start - 1⟩, ⟨s.«end» + 1, r.«end»⟩]
  else if s.start ≤ r.start then [⟨s.«end» + 1, r.«end»⟩]
  else [⟨r.start, s.start - 1⟩]

/-- Line `x` lies in the 1-based inclusive interval `t`. -/
def inRange (t : Range) (x : Int) : Prop :=
  t.start ≤ x ∧ x ≤ t.«end»

/-! ## C8: partial selections stay normalized -/
/-- Every range of the list is a real interval (`start ≤ end`). -/
def ValidRanges (l : List Range) : Prop :=
  ∀ t ∈ l, t.start ≤ t.«end»

/-- The spec's normal form for a stored per-file range list: valid ranges,
sorted by start ascending, pairwise disjoint and non-adjacent — every range's
start exceeds the previous range's end by at least 2. -/
def NormalizedRanges (l : List Range) : Prop :=
  ValidRanges l ∧ l.Pairwise (fun a b => a.«end» + 2 ≤ b.start)

instance (l : List Range) : Decidable (ValidRanges l) := by
  unfold ValidRanges
  infer_instance

instance (l : List Range) : Decidable (NormalizedRanges l) := by
  unfold NormalizedRanges
  infer_instance

/-! ### The partial-selection map and its mutations -/
/-- A `vscode.Selection`, reduced to the only data the core reads: its 0-based
start and end line numbers (`sel.start.line ≤ sel.end.line` always holds for
real selections and is carried as a hypothesis where needed). -/
structure Selection where
  startLine : Int
  endLine : Int
deriving DecidableEq, Repr

/-- The conversion applied to every incoming selection:
`{ start: sel.start.line + 1, end: sel.end.line + 1 }`. -/
def selToRange (sel : Selection) : Range :=
  ⟨sel.startLine + 1, sel.endLine + 1⟩

/-- `Map.get`: the value stored under `k`, if any (first matching key). -/
def lookupPI (m : List (Path × List Range)) (k : Path) : Option (List Range) :=
  (m.find? (fun kv => kv.1 == k)).map (fun kv => kv.2)

/-- `Map.set`: replace the value under an existing key in place, else append
the new binding. -/
def setPI (m : List (Path × List Range)) (k : Path) (v : List Range) :
    List (Path × List Range) :=
  if m.any (fun kv => kv.1 == k) then
    m.map (fun kv => if kv.1 == k then (k, v) else kv)
  else m ++ [(k, v)]

/-- `Map.delete`. -/
def erasePI (m : List (Path × List Range)) (k : Path) :
    List (Path × List Range) :=
  m.filter (fun kv => !(kv.1 == k))

/-- `addRanges(filePath, selections)`: convert the selections, append them to
the stored ranges (`get(filePath) || []`) and store the merge. -/
def addRanges (st : CoreState) (filePath : Path) (sels : List Selection) :
    CoreState :=
  let ranges := sels.map selToRange
  let existingRanges := (lookupPI st.partIncludes filePath).getD []
  let mergedRanges := mergeRanges (existingRanges ++ ranges)
  { st with partIncludes := setPI st.partIncludes filePath mergedRanges }

/-- The subtraction fold of `removeRanges`: each selection range is subtracted
from every current range, flattening the pieces, iteratively over all
selection ranges. -/
def applyRemovals (existingRanges : List Range) (sels : List Selection) :
    List Range :=
  (sels.map selToRange).foldl
    (fun current sel => current.flatMap (fun r => subtractRange r sel))
    existingRanges

/-- `removeRanges(filePath, selections)`: no-op without a non-empty stored
entry; otherwise subtract all selections and either delete the entry (if
nothing remains) or store the remainder. -/
def removeRanges (st : CoreState) (filePath : Path) (sels : List Selection) :
    CoreState :=
  match lookupPI st.partIncludes filePath with
  | none => st
  | some existingRanges =>
    if existingRanges.isEmpty then st
    else
      let current := applyRemovals existingRanges sels
      if current.isEmpty then
        { st with partIncludes := erasePI st.partIncludes filePath }
      else
        { st with partIncludes := setPI st.partIncludes filePath current }

/-! ## C9: range validation on external file change -/
/-- `validateRanges(filePath)` with the file's current line count
(`content.split('\n').length`) passed in: if the file has a non-empty stored
range list, compute the ranges whose start still fits; **only when at least
one range was dropped** (the `validRanges.length !== ranges.length` guard)
store the surviving ranges with their ends clamped to the line count,
otherwise leave the store untouched. -/
def validateRanges (st : CoreState) (filePath : Path) (lineCount : Int) :
    CoreState :=
  match lookupPI st.partIncludes filePath with
  | none => st
  | some ranges =>
    if ranges.isEmpty then st
    else
      let validRanges := ranges.filter (fun r => r.start ≤ lineCount)
      if validRanges.length != ranges.length then
        { st with
          partIncludes := setPI st.partIncludes filePath
            (validRanges.map (fun r => ⟨r.start, min r.«end» lineCount⟩)) }
      else st

/-! ## Visual exclusion -/
/-- The `p.startsWith(dirPathWithSep)` test of `folderContainsPartialIncludes`
applied to a stored partial-selection key.  Keys are file paths stored plain
(never with a trailing separator), so on well-formed segment paths the string
test holds exactly when the key's segments strictly extend the directory's;
for the root `d = []` the prefix `"//"` never matches. -/
def startsWithDirFormKey (d k : Path) : Bool :=
  match d with
  | [] => false
  | _ :: _ => !(k == d) && d.isSuffixOf k

/-- `folderContainsManualIncludes(dirPath)` (cache elided — it only memoizes
this pure computation): some stored manual-include string starts with the
directory's dir-marked form. -/
def folderContainsManualIncludes (st : CoreState) (dirPath : Path) : Bool :=
  st.manualIncludes.any (fun e => startsWithDirForm dirPath e)

/-- `folderContainsPartialIncludes(dirPath)` (cache elided): some stored
partial-selection key starts with the directory's dir-marked form.  Note the
source checks the key's presence only, not that its range list is
non-empty. -/
def folderContainsPartIncludes (st : CoreState) (dirPath : Path) : Bool :=
  st.partIncludes.any (fun kv => startsWithDirFormKey dirPath kv.1)

/-- `isPathVisuallyExcluded(fullPath)` of the newest source version: an
effectively included path is never visually excluded; an effectively excluded
*directory* is kept visible when it has a manual include or a partial
selection beneath it; everything else (files, and paths whose `statSync`
throws) is visually excluded exactly when effectively excluded.  `fsIsDir` is
the `statSync(..).isDirectory()` oracle, `false` when `statSync` throws. -/
def isPathVisuallyExcluded (fsIsDir : Path → Bool) (st : CoreState)
    (fullPath : Path) : Bool :=
  if !(isPathEffectivelyExcluded st fullPath) then false
  else if fsIsDir fullPath &&
      (folderContainsManualIncludes st fullPath ||
        folderContainsPartIncludes st fullPath) then false
  else true

/-! ## C3: report structure listing vs. visual exclusion

The directory tree handed to `getFlatStructure` by `readdirSync` is modelled
as a rose tree; an entry's full path is its name consed onto the directory's
path.  The listing collects the *full paths* the source pushes (the source
renders them workspace-relative with a trailing `/` for directories, an
injective rendering on well-formed trees, so membership is preserved). -/
inductive FSEntry where
  | file (name : String)
  | dir (name : String) (children : List FSEntry)

def FSEntry.name : FSEntry → String
  | .file n => n
  | .dir n _ => n

def FSEntry.isDir : FSEntry → Bool
  | .file _ => false
  | .dir _ _ => true

/-- The `readdirSync(..).sort` comparator of `getFlatStructure`: directories
first, then by name (`localeCompare` approximated by the code-unit order on
names; the theorems below are order-independent). -/
def entryLe (a b : FSEntry) : Bool :=
  (a.isDir && !b.isDir) || ((a.isDir == b.isDir) && (a.name ≤ b.name))

def sortEntries (es : List FSEntry) : List FSEntry :=
  es.mergeSort entryLe

mutual

/-- One iteration of `getFlatStructure`'s entry loop: a non-visually-excluded
entry pushes its path (the source renders directories with a trailing `/`);
a directory is descended into when it is not visually excluded OR has manual
includes OR partial selections beneath it. -/
def flatPiece (fsIsDir : Path → Bool) (st : CoreState) (dirPath : Path) :
    FSEntry → List Path
  | .file n =>
    if isPathVisuallyExcluded fsIsDir st (n :: dirPath) then []
    else [n :: dirPath]
  | .dir n cs =>
    (if !(isPathVisuallyExcluded fsIsDir st (n :: dirPath)) then
      [n :: dirPath]
    else []) ++
    (if !(isPathVisuallyExcluded fsIsDir st (n :: dirPath)) ||
        folderContainsManualIncludes st (n :: dirPath) ||
        folderContainsPartIncludes st (n :: dirPath) then
      getFlatStructure fsIsDir st (n :: dirPath) cs
    else [])
  termination_by e => sizeOf e

/-- `getFlatStructure(dirPath, structureList)`: visit the directory's entries
sorted directories-first then by name, appending each visible path and
recursing per `flatPiece`.  The mutated `structureList` accumulator is
modelled by returning the list of appended paths. -/
def getFlatStructure (fsIsDir : Path → Bool) (st : CoreState) (dirPath : Path)
    (entries : List FSEntry) : List Path :=
  (sortEntries entries).attach.flatMap
    (fun x => flatPiece fsIsDir st dirPath x.1)
  termination_by sizeOf entries
  decreasing_by
    have h1 : x.1 ∈ entries := by
      have h2 := x.2
      unfold sortEntries at h2
      exact List.mem_mergeSort.mp h2
    have := List.sizeOf_lt_of_mem h1
    omega

end

mutual

/-- All full paths at or below one entry of directory `d`. -/
def pathsUnderEntry : FSEntry → Path → List Path
  | .file n, d => [n :: d]
  | .dir n cs, d => (n :: d) :: pathsUnderList cs (n :: d)

/-- All full paths of the tree below a directory (the directory itself
excluded). -/
def pathsUnderList : List FSEntry → Path → List Path
  | [], _ => []
  | e :: es, d => pathsUnderEntry e d ++ pathsUnderList es d

end

/-! ## Theorems -/

theorem checkManual_eq_findSome? (inc exc : List Entry) (p : Path) :
    checkManual inc exc p =
      p.tails.findSome? (fun q =>
        if memPath inc q then some false
        else if memPath exc q then some true
        else none) := by
  induction p with
  | nil =>
    simp only [checkManual, List.tails, List.findSome?]
    cases h1 : memPath inc [] <;> cases h2 : memPath exc [] <;> simp [h1, h2]
  | cons x parent ih =>
    rw [List.tails_cons, List.findSome?_cons]
    by_cases h1 : memPath inc (x :: parent)
    · simp [checkManual, h1]
    · by_cases h2 : memPath exc (x :: parent)
      · simp [checkManual, h1, h2]
      · simp [checkManual, h1, h2, ih]

theorem checkAuto_eq_any (auto : List Entry) (p : Path) :
    checkAuto auto p = p.tails.any (fun q => memPath auto q) := by
  induction p with
  | nil => simp [checkAuto, List.tails]
  | cons x parent ih => rw [List.tails_cons]; simp [checkAuto, ih]

/-- **C1.** `isPathEffectivelyExcluded` implements the spec's ancestor-walk
algorithm: walking from `p` up through its ancestors (`p` itself first), it
returns `false` at the first ancestor found in `manualIncludes` and `true` at
the first ancestor found in `manualExcludes` — the nearest rule wins, include
checked before exclude at the same node — and if no ancestor carries a manual
rule it returns `true` iff some ancestor (including `p`) is in `autoExcludes`,
else `false` (default included). -/
theorem effectivelyExcluded_spec (st : CoreState) (p : Path) :
    isPathEffectivelyExcluded st p = specEffectivelyExcluded st p := by
  rw [isPathEffectivelyExcluded, specEffectivelyExcluded,
    checkManual_eq_findSome?, checkAuto_eq_any]

theorem memPath_append_self (s : List Entry) (p : Path) (b : Bool) :
    memPath (s ++ [(p, b)]) p = true := by
  simp [memPath]

theorem memPath_removePathFromSet_self (s : List Entry) (p : Path) :
    memPath (removePathFromSet p s) p = false := by
  simp only [memPath, removePathFromSet, List.any_eq_false]
  intro e he
  have := List.of_mem_filter he
  simpa using this

theorem memPath_purge_le {s : List Entry} {d p : Path}
    (h : memPath s p = false) :
    memPath (purgeStartingWith d s) p = false := by
  simp only [memPath, List.any_eq_false] at h ⊢
  intro e he
  exact h e (List.mem_of_mem_filter he)

/-- The walk's very first step: a manual include rule on the path itself makes
it effectively included. -/
theorem eff_of_memInc {st : CoreState} {p : Path}
    (h : memPath st.manualIncludes p = true) :
    isPathEffectivelyExcluded st p = false := by
  cases p <;> simp [isPathEffectivelyExcluded, checkManual, h]

/-- The walk's very first step: a manual exclude rule on the path itself, with
no include rule there, makes it effectively excluded. -/
theorem eff_of_memExc {st : CoreState} {p : Path}
    (h1 : memPath st.manualIncludes p = false)
    (h2 : memPath st.manualExcludes p = true) :
    isPathEffectivelyExcluded st p = true := by
  cases p <;> simp [isPathEffectivelyExcluded, checkManual, h1, h2]

/-- After a toggle, the path's own fresh manual rule is the very first rule the
ancestor walk meets, so the effective verdict is exactly flipped. -/
theorem toggleExclude_flips (fsIsDir : Path → Bool) (st : CoreState)
    (p : Path) :
    isPathEffectivelyExcluded (toggleExclude fsIsDir st p) p =
      !(isPathEffectivelyExcluded st p) := by
  by_cases hexc : isPathEffectivelyExcluded st p = true
  · have hinc : memPath (toggleExclude fsIsDir st p).manualIncludes p = true := by
      simp only [toggleExclude, hexc, if_pos]
      exact memPath_append_self _ p _
    rw [eff_of_memInc hinc, hexc]
    rfl
  · have hexc' : isPathEffectivelyExcluded st p = false := by
      simpa using hexc
    have hinc : memPath (toggleExclude fsIsDir st p).manualIncludes p = false := by
      simp only [toggleExclude, hexc', Bool.false_eq_true, if_false]
      by_cases hd : fsIsDir p
      · simp only [hd, if_pos]
        exact memPath_purge_le (memPath_removePathFromSet_self _ p)
      · simp only [hd, Bool.false_eq_true, if_false]
        exact memPath_removePathFromSet_self _ p
    have hexcm : memPath (toggleExclude fsIsDir st p).manualExcludes p = true := by
      simp only [toggleExclude, hexc', Bool.false_eq_true, if_false]
      exact memPath_append_self _ p _
    rw [eff_of_memExc hinc hexcm, hexc']
    rfl

/-- **C10.** A single `toggleExclude(p)` call negates the effective-exclusion
verdict for `p`, for every path and every starting state: the freshly added
manual rule on `p` itself is the first rule the ancestor walk encounters. -/
theorem toggleExclude_negates (fsIsDir : Path → Bool) (st : CoreState)
    (p : Path) :
    isPathEffectivelyExcluded (toggleExclude fsIsDir st p) p =
      !(isPathEffectivelyExcluded st p) :=
  toggleExclude_flips fsIsDir st p

/-- **C4.** For a single leaf (file) path `p` — one `statSync` reports as not a
directory — toggling twice returns `p` to its original effective-exclusion
state. -/
theorem toggleExclude_twice_leaf (fsIsDir : Path → Bool) (st : CoreState)
    (p : Path) (_hleaf : fsIsDir p = false) :
    isPathEffectivelyExcluded
        (toggleExclude fsIsDir (toggleExclude fsIsDir st p) p) p =
      isPathEffectivelyExcluded st p := by
  rw [toggleExclude_flips, toggleExclude_flips, Bool.not_not]

/-- Witness for C4 at a concrete input: file `/a/f` auto-excluded; two toggles
leave it effectively excluded again. -/
theorem toggleExclude_twice_leaf_witness :
    ((fun _ => false) : Path → Bool) ["f", "a"] = false ∧
      isPathEffectivelyExcluded
          (toggleExclude (fun _ => false)
            (toggleExclude (fun _ => false)
              ⟨[(["f", "a"], false)], [], [], []⟩ ["f", "a"])
            ["f", "a"]) ["f", "a"] =
        isPathEffectivelyExcluded ⟨[(["f", "a"], false)], [], [], []⟩
          ["f", "a"] :=
  ⟨rfl, toggleExclude_twice_leaf (fun _ => false) _ ["f", "a"] rfl⟩

theorem toggleExclude_eq_pos {fsIsDir : Path → Bool} {st : CoreState} {p : Path}
    (h : isPathEffectivelyExcluded st p = true) :
    toggleExclude fsIsDir st p =
      { st with
        manualIncludes :=
          addPathToSet (fsIsDir p) p (removePathFromSet p st.manualIncludes)
        manualExcludes :=
          if fsIsDir p then
            purgeStartingWith p (removePathFromSet p st.manualExcludes)
          else removePathFromSet p st.manualExcludes } := by
  simp [toggleExclude, h]

theorem toggleExclude_eq_neg {fsIsDir : Path → Bool} {st : CoreState} {p : Path}
    (h : isPathEffectivelyExcluded st p = false) :
    toggleExclude fsIsDir st p =
      { st with
        manualIncludes :=
          if fsIsDir p then
            purgeStartingWith p (removePathFromSet p st.manualIncludes)
          else removePathFromSet p st.manualIncludes
        manualExcludes :=
          addPathToSet (fsIsDir p) p (removePathFromSet p st.manualExcludes) } := by
  simp [toggleExclude, h]

theorem memPath_append_single (s : List Entry) (p : Path) (b : Bool)
    (q : Path) :
    memPath (s ++ [(p, b)]) q = (memPath s q || (p == q)) := by
  simp [memPath, List.any_append]

theorem memPath_filter_le {s : List Entry} {f : Entry → Bool} {q : Path}
    (h : memPath (s.filter f) q = true) : memPath s q = true := by
  simp only [memPath, List.any_eq_true] at h ⊢
  obtain ⟨e, he, hq⟩ := h
  exact ⟨e, List.mem_of_mem_filter he, hq⟩

theorem disjoint_toggleExclude (fsIsDir : Path → Bool) (st : CoreState)
    (p : Path) (h : manualSetsDisjoint st = true) :
    manualSetsDisjoint (toggleExclude fsIsDir st p) = true := by
  simp only [manualSetsDisjoint, List.all_eq_true] at h ⊢
  intro e he
  by_cases hexc : isPathEffectivelyExcluded st p = true
  · rw [toggleExclude_eq_pos hexc] at he ⊢
    simp only [addPathToSet] at he
    rcases List.mem_append.mp he with he1 | he2
    · have hin : e ∈ st.manualIncludes := List.mem_of_mem_filter he1
      have hni := h e hin
      simp only [Bool.not_eq_true'] at hni ⊢
      by_cases hd : fsIsDir p = true
      · simp only [hd, if_pos]
        cases hmem : memPath (purgeStartingWith p (removePathFromSet p st.manualExcludes)) e.1
        · rfl
        · exact absurd (memPath_filter_le (memPath_filter_le hmem)) (by simp [hni])
      · simp only [hd, if_neg, Bool.false_eq_true, if_false]
        cases hmem : memPath (removePathFromSet p st.manualExcludes) e.1
        · rfl
        · exact absurd (memPath_filter_le hmem) (by simp [hni])
    · have he2' : e = (p, fsIsDir p) := by simpa using he2
      subst he2'
      simp only [Bool.not_eq_true']
      by_cases hd : fsIsDir p = true
      · simp only [hd, if_pos]
        cases hmem : memPath (purgeStartingWith p (removePathFromSet p st.manualExcludes)) p
        · rfl
        · have := memPath_filter_le hmem
          rw [memPath_removePathFromSet_self] at this
          exact absurd this (by simp)
      · simp only [hd, Bool.false_eq_true, if_false]
        exact memPath_removePathFromSet_self _ _
  · have hexc' : isPathEffectivelyExcluded st p = false := by simpa using hexc
    rw [toggleExclude_eq_neg hexc'] at he ⊢
    have hin : e ∈ st.manualIncludes ∧ ¬(e.1 = p) := by
      by_cases hd : fsIsDir p = true
      · simp only [hd, if_pos] at he
        have h1 := List.mem_of_mem_filter he
        refine ⟨List.mem_of_mem_filter h1, ?_⟩
        have := List.of_mem_filter h1
        simpa using this
      · simp only [hd, Bool.false_eq_true, if_false] at he
        refine ⟨List.mem_of_mem_filter he, ?_⟩
        have := List.of_mem_filter he
        simpa using this
    simp only [addPathToSet, memPath_append_single, Bool.not_eq_true',
      Bool.or_eq_false_iff]
    constructor
    · cases hmem : memPath (removePathFromSet p st.manualExcludes) e.1
      · rfl
      · have := memPath_filter_le hmem
        have hni := h e hin.1
        simp only [Bool.not_eq_true'] at hni
        simp [hni] at this
    · simpa using fun hpe => hin.2 hpe.symm

theorem disjoint_toggleExcludeMultiple (fsIsDir : Path → Bool)
    (st : CoreState) (ps : List Path) (h : manualSetsDisjoint st = true) :
    manualSetsDisjoint (toggleExcludeMultiple fsIsDir st ps) = true := by
  induction ps generalizing st with
  | nil => simpa [toggleExcludeMultiple] using h
  | cons q qs ih =>
    simp only [toggleExcludeMultiple, List.foldl_cons]
    exact ih _ (disjoint_toggleExclude fsIsDir st q h)

/-- **C5.** `manualIncludes` and `manualExcludes` stay path-disjoint under
`toggleExclude`, `toggleExcludeMultiple` and `resetExclusions`; after
`toggleExclude(p)` the path `p` sits in exactly one of the two sets (the one
matching its previous effective verdict); and when `p` is a directory no
element prefixed by `p`'s dir-marked form survives in the opposite set. -/
theorem manualSets_disjoint_invariant (fsIsDir : Path → Bool) (st : CoreState)
    (p : Path) (ps : List Path) :
    (manualSetsDisjoint st = true →
      manualSetsDisjoint (toggleExclude fsIsDir st p) = true) ∧
    (manualSetsDisjoint st = true →
      manualSetsDisjoint (toggleExcludeMultiple fsIsDir st ps) = true) ∧
    manualSetsDisjoint (resetExclusions st) = true ∧
    (memPath (toggleExclude fsIsDir st p).manualIncludes p =
        isPathEffectivelyExcluded st p ∧
      memPath (toggleExclude fsIsDir st p).manualExcludes p =
        !(isPathEffectivelyExcluded st p)) ∧
    (fsIsDir p = true →
      (isPathEffectivelyExcluded st p = true →
        ∀ e ∈ (toggleExclude fsIsDir st p).manualExcludes,
          startsWithDirForm p e = false) ∧
      (isPathEffectivelyExcluded st p = false →
        ∀ e ∈ (toggleExclude fsIsDir st p).manualIncludes,
          startsWithDirForm p e = false)) := by
  refine ⟨disjoint_toggleExclude fsIsDir st p,
    disjoint_toggleExcludeMultiple fsIsDir st ps,
    by simp [manualSetsDisjoint, resetExclusions], ?_, ?_⟩
  · by_cases hexc : isPathEffectivelyExcluded st p = true
    · rw [toggleExclude_eq_pos hexc, hexc]
      constructor
      · exact memPath_append_self _ p _
      · by_cases hd : fsIsDir p = true
        · simp only [hd, if_pos]
          cases hmem : memPath (purgeStartingWith p (removePathFromSet p st.manualExcludes)) p
          · rfl
          · have h1 := memPath_filter_le hmem
            rw [memPath_removePathFromSet_self] at h1
            simp at h1
        · simp only [hd, Bool.false_eq_true, if_false]
          exact memPath_removePathFromSet_self _ _
    · have hexc' : isPathEffectivelyExcluded st p = false := by simpa using hexc
      rw [toggleExclude_eq_neg hexc', hexc']
      constructor
      · by_cases hd : fsIsDir p = true
        · simp only [hd, if_pos]
          cases hmem : memPath (purgeStartingWith p (removePathFromSet p st.manualIncludes)) p
          · rfl
          · have h1 := memPath_filter_le hmem
            rw [memPath_removePathFromSet_self] at h1
            simp at h1
        · simp only [hd, Bool.false_eq_true, if_false]
          exact memPath_removePathFromSet_self _ _
      · exact memPath_append_self _ p _
  · intro hd
    constructor
    · intro hexc
      rw [toggleExclude_eq_pos hexc]
      simp only [hd, if_pos]
      intro e he
      have := List.of_mem_filter he
      simpa using this
    · intro hexc
      rw [toggleExclude_eq_neg hexc]
      simp only [hd, if_pos]
      intro e he
      have := List.of_mem_filter he
      simpa using this

/-- Witness for C5 at concrete inputs: directory `/d` toggled on a state where
it is auto-excluded and `/d/x` is manually excluded. -/
theorem manualSets_disjoint_invariant_witness :
    manualSetsDisjoint
        ⟨[(["d"], true)], [], [(["x", "d"], false)], []⟩ = true ∧
      manualSetsDisjoint
        (toggleExcludeMultiple (fun q => q == ["d"])
          ⟨[(["d"], true)], [], [(["x", "d"], false)], []⟩
          [["d"], ["x", "d"]]) = true :=
  ⟨by decide,
    (manualSets_disjoint_invariant (fun q => q == ["d"])
      ⟨[(["d"], true)], [], [(["x", "d"], false)], []⟩
      ["d"] [["d"], ["x", "d"]]).2.1 (by decide)⟩

theorem mergeLoop_ne_nil (last : Range) (rs : List Range) :
    mergeLoop last rs ≠ [] := by
  induction rs generalizing last with
  | nil => simp [mergeLoop]
  | cons r rs ih =>
    rw [mergeLoop]
    by_cases h : r.start ≤ last.«end» + 1
    · simpa [h] using ih _
    · simp [h]

theorem mergeLoop_head_start (last : Range) (rs : List Range) :
    ∃ t, (mergeLoop last rs).head? = some t ∧ t.start = last.start := by
  induction rs generalizing last with
  | nil => exact ⟨last, rfl, rfl⟩
  | cons r rs ih =>
    rw [mergeLoop]
    by_cases h : r.start ≤ last.«end» + 1
    · simpa [h] using ih ⟨last.start, max last.«end» r.«end»⟩
    · exact ⟨last, by simp [h], rfl⟩

theorem mergeLoop_start_le (last : Range) (rs : List Range)
    (hsorted : (last :: rs).Pairwise (fun a b => a.start ≤ b.start)) :
    ∀ t ∈ mergeLoop last rs, last.start ≤ t.start := by
  induction rs generalizing last with
  | nil => simp [mergeLoop]
  | cons r rs ih =>
    rw [List.pairwise_cons] at hsorted
    obtain ⟨hlast, hrest⟩ := hsorted
    rw [mergeLoop]
    by_cases h : r.start ≤ last.«end» + 1
    · simp only [h, if_pos]
      intro t ht
      have := ih ⟨last.start, max last.«end» r.«end»⟩ ?_ t ht
      · exact this
      · rw [List.pairwise_cons]
        rw [List.pairwise_cons] at hrest
        exact ⟨fun x hx => hlast x (by simp [hx]), hrest.2⟩
    · simp only [h, if_false]
      intro t ht
      rcases List.mem_cons.mp ht with rfl | ht
      · exact le_refl _
      · exact le_trans (hlast r (by simp)) (ih r hrest t ht)

/-- Sortedness of `mergeLoop` output by start. -/
theorem mergeLoop_sorted (last : Range) (rs : List Range)
    (hsorted : (last :: rs).Pairwise (fun a b => a.start ≤ b.start)) :
    (mergeLoop last rs).Pairwise (fun a b => a.start ≤ b.start) := by
  induction rs generalizing last with
  | nil => simp [mergeLoop]
  | cons r rs ih =>
    rw [mergeLoop]
    rw [List.pairwise_cons] at hsorted
    obtain ⟨hlast, hrest⟩ := hsorted
    by_cases h : r.start ≤ last.«end» + 1
    · simp only [h, if_pos]
      refine ih ⟨last.start, max last.«end» r.«end»⟩ ?_
      rw [List.pairwise_cons] at hrest ⊢
      exact ⟨fun x hx => hlast x (by simp [hx]), hrest.2⟩
    · simp only [h, if_false]
      rw [List.pairwise_cons]
      refine ⟨?_, ih r hrest⟩
      intro t ht
      have hr : last.start ≤ r.start := hlast r (by simp)
      exact le_trans hr (mergeLoop_start_le r rs hrest t ht)

/-- Successive output ranges of `mergeLoop` are separated by a real gap: the
next range's start strictly exceeds the previous range's end plus one, because
a range within that bound would have been folded in. -/
theorem mergeLoop_chain_gap (last : Range) (rs : List Range) :
    List.Chain' (fun a b => a.«end» + 1 < b.start) (mergeLoop last rs) := by
  induction rs generalizing last with
  | nil => simp [mergeLoop]
  | cons r rs ih =>
    rw [mergeLoop]
    by_cases h : r.start ≤ last.«end» + 1
    · simpa [h] using ih ⟨last.start, max last.«end» r.«end»⟩
    · simp only [h, if_false]
      rw [List.chain'_cons']
      refine ⟨?_, ih r⟩
      intro b hb
      obtain ⟨t, ht, hts⟩ := mergeLoop_head_start r rs
      rw [ht] at hb
      cases hb
      omega

/-- `mergeLoop` leaves a gap-separated list unchanged. -/
theorem mergeLoop_of_gapped (last : Range) (rs : List Range)
    (h : List.Chain' (fun a b => a.«end» + 1 < b.start) (last :: rs)) :
    mergeLoop last rs = last :: rs := by
  induction rs generalizing last with
  | nil => simp [mergeLoop]
  | cons r rs ih =>
    rw [List.chain'_cons] at h
    rw [mergeLoop, if_neg (by omega), ih r h.2]

theorem leStart_trans (a b c : Range) :
    leStart a b → leStart b c → leStart a c := by
  simp only [leStart, decide_eq_true_eq]
  omega

theorem leStart_total (a b : Range) : leStart a b || leStart b a := by
  simp only [leStart]
  by_cases h : a.start ≤ b.start
  · simp [h]
  · simp [h]
    omega

/-- The emitted starts are nondecreasing, stated over the whole of
`mergeRanges`' output. -/
theorem mergeRanges_sorted (R : List Range) :
    (mergeRanges R).Pairwise (fun a b => a.start ≤ b.start) := by
  rw [mergeRanges]
  rcases hs : R.mergeSort leStart with _ | ⟨r, rest⟩
  · simp
  · have hsorted : (r :: rest).Pairwise (fun a b => leStart a b = true) := by
      rw [← hs]
      exact List.sorted_mergeSort leStart_trans leStart_total R
    exact mergeLoop_sorted r rest
      (hsorted.imp (fun h => by simpa [leStart] using h))

/-- `mergeRanges` output is gap-separated. -/
theorem mergeRanges_gapped (R : List Range) :
    List.Chain' (fun a b => a.«end» + 1 < b.start) (mergeRanges R) := by
  rw [mergeRanges]
  rcases R.mergeSort leStart with _ | ⟨r, rest⟩
  · simp
  · exact mergeLoop_chain_gap r rest

/-- **C6.** `mergeRanges` is idempotent on every range list: the output is
sorted by start and gap-separated, the stable sort leaves it unchanged, and
the fold then finds nothing to merge. -/
theorem mergeRanges_idempotent (R : List Range) :
    mergeRanges (mergeRanges R) = mergeRanges R := by
  have hsorted := mergeRanges_sorted R
  have hgap := mergeRanges_gapped R
  have hsort_id : (mergeRanges R).mergeSort leStart = mergeRanges R := by
    apply List.mergeSort_of_sorted
    exact hsorted.imp (fun h => by simpa [leStart] using h)
  rcases hout : mergeRanges R with _ | ⟨t, ts⟩
  · simp [mergeRanges]
  · rw [hout] at hsort_id hgap
    rw [mergeRanges, hsort_id]
    exact mergeLoop_of_gapped t ts hgap

/-- **C7.** For intervals `r`, `s` with `start ≤ end`, `subtractRange(r, s)`
returns zero, one or two intervals that lie within `r` and are disjoint from
`s`, and whose union together with `s ∩ r` covers exactly the lines of `r` —
so re-adding the removed part `s ∩ r` afterwards restores exactly `r` and
never reintroduces lines outside `r`. -/
theorem subtractRange_correct (r s : Range) (hr : r.start ≤ r.«end»)
    (hs : s.start ≤ s.«end») :
    (subtractRange r s).length ≤ 2 ∧
      (∀ t ∈ subtractRange r s, r.start ≤ t.start ∧ t.«end» ≤ r.«end») ∧
      (∀ t ∈ subtractRange r s, ∀ x : Int, inRange t x → ¬inRange s x) ∧
      (∀ x : Int,
        inRange r x ↔
          ((∃ t ∈ subtractRange r s, inRange t x) ∨
            (inRange s x ∧ inRange r x))) := by
  refine ⟨?_, ?_, ?_, ?_⟩
  · rw [subtractRange]
    split_ifs <;> simp
  · rw [subtractRange]
    split_ifs with h1 h2 h3 h4
    · intro t ht
      simp only [List.mem_cons, List.not_mem_nil, or_false] at ht
      subst ht
      exact ⟨le_refl _, le_refl _⟩
    · intro t ht
      exact absurd ht (List.not_mem_nil t)
    · simp only [Bool.or_eq_true, decide_eq_true_eq, not_or] at h1
      simp only [Bool.and_eq_true, decide_eq_true_eq] at h3
      intro t ht
      simp only [List.mem_cons, List.not_mem_nil, or_false] at ht
      rcases ht with rfl | rfl
      · exact ⟨le_refl _, by dsimp only; omega⟩
      · exact ⟨by dsimp only; omega, le_refl _⟩
    · simp only [Bool.or_eq_true, decide_eq_true_eq, not_or] at h1
      intro t ht
      simp only [List.mem_cons, List.not_mem_nil, or_false] at ht
      subst ht
      exact ⟨by dsimp only; omega, le_refl _⟩
    · simp only [Bool.or_eq_true, decide_eq_true_eq, not_or] at h1
      intro t ht
      simp only [List.mem_cons, List.not_mem_nil, or_false] at ht
      subst ht
      exact ⟨le_refl _, by dsimp only; omega⟩
  · rw [subtractRange]
    split_ifs with h1 h2 h3 h4
    · simp only [Bool.or_eq_true, decide_eq_true_eq] at h1
      intro t ht x htx
      simp only [List.mem_cons, List.not_mem_nil, or_false] at ht
      subst ht
      simp only [inRange] at htx ⊢
      omega
    · intro t ht
      exact absurd ht (List.not_mem_nil t)
    · simp only [Bool.and_eq_true, decide_eq_true_eq] at h3
      intro t ht x htx
      simp only [List.mem_cons, List.not_mem_nil, or_false] at ht
      simp only [inRange] at htx ⊢
      rcases ht with rfl | rfl <;> dsimp only at htx <;> omega
    · simp only [Bool.or_eq_true, decide_eq_true_eq, not_or] at h1
      simp only [decide_eq_true_eq] at h4
      intro t ht x htx
      simp only [List.mem_cons, List.not_mem_nil, or_false] at ht
      subst ht
      simp only [inRange] at htx ⊢
      omega
    · simp only [decide_eq_true_eq, not_le] at h4
      intro t ht x htx
      simp only [List.mem_cons, List.not_mem_nil, or_false] at ht
      subst ht
      simp only [inRange] at htx ⊢
      omega
  · intro x
    rw [subtractRange]
    split_ifs with h1 h2 h3 h4
    · simp only [Bool.or_eq_true, decide_eq_true_eq] at h1
      simp [inRange]
    · simp only [Bool.or_eq_true, decide_eq_true_eq, not_or] at h1
      simp only [Bool.and_eq_true, decide_eq_true_eq, ge_iff_le] at h2
      simp [inRange]
      omega
    · simp only [Bool.and_eq_true, decide_eq_true_eq] at h3
      simp [inRange]
      omega
    · simp only [Bool.or_eq_true, decide_eq_true_eq, not_or] at h1
      simp only [decide_eq_true_eq] at h4
      simp [inRange]
      omega
    · simp only [Bool.or_eq_true, decide_eq_true_eq, not_or] at h1
      simp only [Bool.and_eq_true, decide_eq_true_eq, ge_iff_le, not_and,
        not_le, not_lt] at h2 h3
      simp only [decide_eq_true_eq, not_le] at h4
      simp [inRange]
      omega

/-- Witness for C7 at a concrete input: `r = [1,10]`, `s = [3,5]`. -/
theorem subtractRange_correct_witness :
    (((1 : Int) ≤ 10 ∧ (3 : Int) ≤ 5) ∧
      ((subtractRange ⟨1, 10⟩ ⟨3, 5⟩).length ≤ 2 ∧
        (∀ t ∈ subtractRange ⟨1, 10⟩ ⟨3, 5⟩,
          (⟨1, 10⟩ : Range).start ≤ t.start ∧
            t.«end» ≤ (⟨1, 10⟩ : Range).«end») ∧
        (∀ t ∈ subtractRange ⟨1, 10⟩ ⟨3, 5⟩, ∀ x : Int,
          inRange t x → ¬inRange ⟨3, 5⟩ x) ∧
        (∀ x : Int,
          inRange ⟨1, 10⟩ x ↔
            ((∃ t ∈ subtractRange ⟨1, 10⟩ ⟨3, 5⟩, inRange t x) ∨
              (inRange ⟨3, 5⟩ x ∧ inRange ⟨1, 10⟩ x))))) :=
  ⟨⟨by decide, by decide⟩,
    subtractRange_correct ⟨1, 10⟩ ⟨3, 5⟩ (by decide) (by decide)⟩

theorem mergeLoop_valid (last : Range) (rs : List Range)
    (hv : last.start ≤ last.«end») (hvs : ∀ t ∈ rs, t.start ≤ t.«end») :
    ValidRanges (mergeLoop last rs) := by
  induction rs generalizing last with
  | nil => simpa [mergeLoop, ValidRanges] using hv
  | cons r rs ih =>
    rw [mergeLoop]
    by_cases h : r.start ≤ last.«end» + 1
    · simp only [h, if_pos]
      refine ih ⟨last.start, max last.«end» r.«end»⟩ ?_
        (fun t ht => hvs t (by simp [ht]))
      dsimp only
      omega
    · simp only [h, if_false]
      intro t ht
      rcases List.mem_cons.mp ht with rfl | ht
      · exact hv
      · exact ih r (hvs r (by simp)) (fun t ht => hvs t (by simp [ht])) t ht

theorem mergeRanges_valid (R : List Range) (h : ValidRanges R) :
    ValidRanges (mergeRanges R) := by
  rw [mergeRanges]
  rcases hs : R.mergeSort leStart with _ | ⟨r, rest⟩
  · intro t ht
    exact absurd ht (List.not_mem_nil t)
  · have hmem : ∀ t ∈ r :: rest, t.start ≤ t.«end» := by
      intro t ht
      refine h t ?_
      have ht' : t ∈ R.mergeSort leStart := by rw [hs]; exact ht
      exact List.mem_mergeSort.mp ht'
    exact mergeLoop_valid r rest (hmem r (by simp))
      (fun t ht => hmem t (by simp [ht]))

/-- For valid range lists the successive-gap property spreads to all pairs:
later ranges start no earlier than their predecessor's start. -/
theorem chain_gap_pairwise :
    ∀ (l : List Range), ValidRanges l →
      List.Chain' (fun a b => a.«end» + 1 < b.start) l →
      l.Pairwise (fun a b => a.«end» + 2 ≤ b.start)
  | [], _, _ => List.Pairwise.nil
  | [_], _, _ => by simp
  | a :: b :: l, hv, hc => by
    rw [List.chain'_cons] at hc
    have hvtail : ValidRanges (b :: l) := fun t ht => hv t (by simp [ht])
    have ihp := chain_gap_pairwise (b :: l) hvtail hc.2
    rw [List.pairwise_cons] at ihp ⊢
    refine ⟨?_, List.pairwise_cons.mpr ihp⟩
    intro c hc'
    rcases List.mem_cons.mp hc' with rfl | hc'
    · omega
    · have h1 := ihp.1 c hc'
      have h2 : b.start ≤ b.«end» := hvtail b (by simp)
      omega

/-- `mergeRanges` of any valid range list is normalized. -/
theorem mergeRanges_normalized (R : List Range) (h : ValidRanges R) :
    NormalizedRanges (mergeRanges R) :=
  ⟨mergeRanges_valid R h,
    chain_gap_pairwise _ (mergeRanges_valid R h) (mergeRanges_gapped R)⟩

/-- The pieces returned by `subtractRange` on valid inputs are valid, lie
within `r`, and are themselves gap-separated. -/
theorem subtractRange_norm (r s : Range) (hr : r.start ≤ r.«end»)
    (hs : s.start ≤ s.«end») :
    ValidRanges (subtractRange r s) ∧
      (∀ t ∈ subtractRange r s, r.start ≤ t.start ∧ t.«end» ≤ r.«end») ∧
      (subtractRange r s).Pairwise (fun a b => a.«end» + 2 ≤ b.start) := by
  rw [subtractRange]
  split_ifs with h1 h2 h3 h4
  · exact ⟨fun t ht => by simp at ht; subst ht; exact hr,
      fun t ht => by simp at ht; subst ht; exact ⟨le_refl _, le_refl _⟩,
      by simp⟩
  · exact ⟨fun t ht => absurd ht (List.not_mem_nil t),
      fun t ht => absurd ht (List.not_mem_nil t), by simp⟩
  · simp only [Bool.or_eq_true, decide_eq_true_eq, not_or] at h1
    simp only [Bool.and_eq_true, decide_eq_true_eq] at h3
    refine ⟨?_, ?_, ?_⟩
    · intro t ht
      simp only [List.mem_cons, List.not_mem_nil, or_false] at ht
      rcases ht with rfl | rfl <;> dsimp only <;> omega
    · intro t ht
      simp only [List.mem_cons, List.not_mem_nil, or_false] at ht
      rcases ht with rfl | rfl <;> dsimp only <;> constructor <;> omega
    · refine List.pairwise_cons.mpr ⟨?_, by simp⟩
      intro c hc
      simp only [List.mem_cons, List.not_mem_nil, or_false] at hc
      subst hc
      dsimp only
      omega
  · simp only [Bool.or_eq_true, decide_eq_true_eq, not_or] at h1
    simp only [Bool.and_eq_true, decide_eq_true_eq, ge_iff_le, not_and,
      not_le, not_lt] at h2
    simp only [decide_eq_true_eq] at h4
    refine ⟨?_, ?_, by simp⟩
    · intro t ht
      simp only [List.mem_cons, List.not_mem_nil, or_false] at ht
      subst ht
      dsimp only
      omega
    · intro t ht
      simp only [List.mem_cons, List.not_mem_nil, or_false] at ht
      subst ht
      dsimp only
      constructor <;> omega
  · simp only [Bool.or_eq_true, decide_eq_true_eq, not_or] at h1
    simp only [decide_eq_true_eq, not_le] at h4
    refine ⟨?_, ?_, by simp⟩
    · intro t ht
      simp only [List.mem_cons, List.not_mem_nil, or_false] at ht
      subst ht
      dsimp only
      omega
    · intro t ht
      simp only [List.mem_cons, List.not_mem_nil, or_false] at ht
      subst ht
      dsimp only
      constructor <;> omega

/-- Subtracting one valid range from every member of a normalized list keeps
the flattened result normalized, and every resulting piece stays within some
original range. -/
theorem normalized_flatMap_subtract (s : Range) (hs : s.start ≤ s.«end») :
    ∀ (l : List Range), NormalizedRanges l →
      NormalizedRanges (l.flatMap (fun r => subtractRange r s)) ∧
        (∀ b ∈ l.flatMap (fun r => subtractRange r s),
          ∃ r ∈ l, r.start ≤ b.start ∧ b.«end» ≤ r.«end») := by
  intro l hl
  induction l with
  | nil => exact ⟨⟨fun t ht => absurd ht (List.not_mem_nil t), by simp⟩, by simp⟩
  | cons r l ih =>
    obtain ⟨hv, hp⟩ := hl
    rw [List.pairwise_cons] at hp
    have hvr : r.start ≤ r.«end» := hv r (by simp)
    have htail : NormalizedRanges l :=
      ⟨fun t ht => hv t (by simp [ht]), hp.2⟩
    obtain ⟨⟨ihv, ihp⟩, ihb⟩ := ih htail
    obtain ⟨hsv, hsb, hsp⟩ := subtractRange_norm r s hvr hs
    rw [List.flatMap_cons]
    refine ⟨⟨?_, ?_⟩, ?_⟩
    · intro t ht
      rcases List.mem_append.mp ht with ht | ht
      · exact hsv t ht
      · exact ihv t ht
    · rw [List.pairwise_append]
      refine ⟨hsp, ihp, ?_⟩
      intro a ha b hb
      obtain ⟨r', hr', hr's, hr'e⟩ := ihb b hb
      have hgap := hp.1 r' hr'
      have hae := (hsb a ha).2
      omega
    · intro b hb
      rcases List.mem_append.mp hb with hb | hb
      · exact ⟨r, by simp, (hsb b hb).1, (hsb b hb).2⟩
      · obtain ⟨r', hr', h1, h2⟩ := ihb b hb
        exact ⟨r', by simp [hr'], h1, h2⟩

theorem lookupPI_map_set (m : List (Path × List Range)) (k : Path)
    (v : List Range) :
    lookupPI (m.map (fun kv => if kv.1 == k then (k, v) else kv)) k =
      if m.any (fun kv => kv.1 == k) then some v else none := by
  induction m with
  | nil => simp [lookupPI]
  | cons kv m ih =>
    by_cases h : kv.1 == k
    · simp [lookupPI, List.find?, h]
    · simp only [List.map_cons, h, Bool.false_eq_true, if_false,
        List.any_cons, Bool.false_or]
      rw [lookupPI, List.find?]
      simp only [h]
      exact ih

theorem lookupPI_setPI_self (m : List (Path × List Range)) (k : Path)
    (v : List Range) :
    lookupPI (setPI m k v) k = some v := by
  rw [setPI]
  by_cases h : m.any (fun kv => kv.1 == k)
  · rw [if_pos h, lookupPI_map_set, if_pos h]
  · rw [if_neg h]
    induction m with
    | nil => simp [lookupPI, List.find?]
    | cons kv m ih =>
      simp only [List.any_cons, Bool.or_eq_true, not_or] at h
      rw [List.cons_append, lookupPI, List.find?]
      have h1 : (kv.1 == k) = false := by
        cases hkv : (kv.1 == k)
        · rfl
        · exact absurd hkv h.1
      simp only [h1]
      exact ih h.2

theorem lookupPI_erasePI_self (m : List (Path × List Range)) (k : Path) :
    lookupPI (erasePI m k) k = none := by
  rw [lookupPI, Option.map_eq_none', List.find?_eq_none]
  intro kv hkv
  have := List.of_mem_filter hkv
  simpa using this

theorem foldl_subtract_normalized (rs : List Range) :
    ∀ l, (∀ s ∈ rs, s.start ≤ s.«end») → NormalizedRanges l →
      NormalizedRanges
        (rs.foldl
          (fun current sel => current.flatMap (fun r => subtractRange r sel))
          l) := by
  induction rs with
  | nil => intro l _ hl; exact hl
  | cons s rs ih =>
    intro l hrs hl
    rw [List.foldl_cons]
    exact ih _ (fun t ht => hrs t (by simp [ht]))
      ((normalized_flatMap_subtract s (hrs s (by simp)) l hl).1)

theorem removeRanges_of_none {st : CoreState} {file : Path}
    {sels : List Selection}
    (hc : lookupPI st.partIncludes file = none) :
    removeRanges st file sels = st := by
  rw [removeRanges, hc]

theorem removeRanges_of_empty {st : CoreState} {file : Path}
    {sels : List Selection} {ex : List Range}
    (hc : lookupPI st.partIncludes file = some ex)
    (he : ex.isEmpty = true) :
    removeRanges st file sels = st := by
  rw [removeRanges, hc]
  simp [he]

theorem removeRanges_of_erase {st : CoreState} {file : Path}
    {sels : List Selection} {ex : List Range}
    (hc : lookupPI st.partIncludes file = some ex)
    (he : ex.isEmpty = false)
    (hf : (applyRemovals ex sels).isEmpty = true) :
    removeRanges st file sels =
      { st with partIncludes := erasePI st.partIncludes file } := by
  rw [removeRanges, hc]
  simp [he, hf]

theorem removeRanges_of_set {st : CoreState} {file : Path}
    {sels : List Selection} {ex : List Range}
    (hc : lookupPI st.partIncludes file = some ex)
    (he : ex.isEmpty = false)
    (hf : (applyRemovals ex sels).isEmpty = false) :
    removeRanges st file sels =
      { st with
        partIncludes := setPI st.partIncludes file (applyRemovals ex sels) } := by
  rw [removeRanges, hc]
  simp [he, hf]

/-- **C8.** After every mutation of a file's partial selection the stored
range list for that file is normalized — valid, sorted by start, pairwise
disjoint and non-adjacent (each start exceeds the previous end by at least
2) — and an entry emptied by `removeRanges` is deleted rather than kept
empty, while a non-empty remainder is stored as-is. -/
theorem partSelection_normalized (st : CoreState) (file : Path)
    (sels : List Selection)
    (hsels : ∀ s ∈ sels, s.startLine ≤ s.endLine)
    (hstored : ∀ l, lookupPI st.partIncludes file = some l →
      NormalizedRanges l) :
    (∀ l, lookupPI (addRanges st file sels).partIncludes file = some l →
        NormalizedRanges l) ∧
      (∀ l, lookupPI (removeRanges st file sels).partIncludes file = some l →
        NormalizedRanges l) ∧
      (∀ ex, lookupPI st.partIncludes file = some ex → ex ≠ [] →
        (applyRemovals ex sels = [] →
          lookupPI (removeRanges st file sels).partIncludes file = none) ∧
        (applyRemovals ex sels ≠ [] →
          lookupPI (removeRanges st file sels).partIncludes file =
            some (applyRemovals ex sels))) := by
  have hvsel : ∀ r ∈ sels.map selToRange, r.start ≤ r.«end» := by
    intro r hr
    simp only [List.mem_map] at hr
    obtain ⟨s, hsm, rfl⟩ := hr
    have := hsels s hsm
    simp only [selToRange]
    omega
  refine ⟨?_, ?_, ?_⟩
  · intro l hl
    simp only [addRanges] at hl
    rw [lookupPI_setPI_self] at hl
    injection hl with hl
    subst hl
    apply mergeRanges_normalized
    intro t ht
    rcases List.mem_append.mp ht with ht | ht
    · cases hc : lookupPI st.partIncludes file with
      | none => rw [hc] at ht; exact absurd ht (List.not_mem_nil t)
      | some ex =>
        rw [hc] at ht
        exact (hstored ex hc).1 t ht
    · exact hvsel t ht
  · intro l hl
    cases hc : lookupPI st.partIncludes file with
    | none =>
      rw [removeRanges_of_none hc, hc] at hl
      exact absurd hl (by simp)
    | some ex =>
      cases hemp : ex.isEmpty with
      | true =>
        rw [removeRanges_of_empty hc hemp, hc] at hl
        injection hl with hl
        subst hl
        have hnil : ex = [] := List.isEmpty_iff.mp hemp
        subst hnil
        exact ⟨fun t ht => absurd ht (List.not_mem_nil t), List.Pairwise.nil⟩
      | false =>
        cases hfe : (applyRemovals ex sels).isEmpty with
        | true =>
          rw [removeRanges_of_erase hc hemp hfe] at hl
          simp only at hl
          rw [lookupPI_erasePI_self] at hl
          exact absurd hl (by simp)
        | false =>
          rw [removeRanges_of_set hc hemp hfe] at hl
          simp only at hl
          rw [lookupPI_setPI_self] at hl
          injection hl with hl
          subst hl
          exact foldl_subtract_normalized (sels.map selToRange) ex hvsel
            (hstored ex hc)
  · intro ex hex hne
    have hemp : ex.isEmpty = false := by
      cases h : ex.isEmpty
      · rfl
      · exact absurd (List.isEmpty_iff.mp h) hne
    constructor
    · intro hempty
      have hfe : (applyRemovals ex sels).isEmpty = true := by
        rw [hempty]; rfl
      rw [removeRanges_of_erase hex hemp hfe]
      exact lookupPI_erasePI_self _ _
    · intro hnonempty
      have hfe : (applyRemovals ex sels).isEmpty = false := by
        cases h : (applyRemovals ex sels).isEmpty
        · rfl
        · exact absurd (List.isEmpty_iff.mp h) hnonempty
      rw [removeRanges_of_set hex hemp hfe]
      exact lookupPI_setPI_self _ _ _

/-- Witness for C8 at a concrete input: file `/f` stores `[1,3]`; selection
with 0-based lines 5–7 is added. -/
theorem partSelection_normalized_witness :
    ((∀ s ∈ [(⟨5, 7⟩ : Selection)], s.startLine ≤ s.endLine) ∧
      (∀ l, lookupPI ([(["f"], [⟨1, 3⟩])] : List (Path × List Range)) ["f"] =
          some l → NormalizedRanges l)) ∧
      (∀ l,
        lookupPI
            (addRanges ⟨[], [], [], [(["f"], [⟨1, 3⟩])]⟩ ["f"]
              [⟨5, 7⟩]).partIncludes ["f"] = some l →
          NormalizedRanges l) := by
  have h1 : ∀ s ∈ [(⟨5, 7⟩ : Selection)], s.startLine ≤ s.endLine := by decide
  have h2 : ∀ l, lookupPI ([(["f"], [⟨1, 3⟩])] : List (Path × List Range))
      ["f"] = some l → NormalizedRanges l := by
    intro l hl
    have he : lookupPI ([(["f"], [⟨1, 3⟩])] : List (Path × List Range))
        ["f"] = some [⟨1, 3⟩] := by decide
    rw [he] at hl
    injection hl with hl
    subst hl
    decide
  exact ⟨⟨h1, h2⟩,
    (partSelection_normalized ⟨[], [], [], [(["f"], [⟨1, 3⟩])]⟩ ["f"]
      [⟨5, 7⟩] h1 h2).1⟩

/-- **C9, counterexample.** The claim says every stored range whose end
exceeds the current line count is clamped on a change notification.  With the
single stored range `[1,10]` and a file shrunk to 5 lines, no range's *start*
exceeds 5, so the length guard fails and `validateRanges` leaves the range
list untouched: the end 10 remains stored unclamped although `10 > 5`. -/
theorem validateRanges_counterexample :
    lookupPI
        (validateRanges ⟨[], [], [], [(["f"], [⟨1, 10⟩])]⟩ ["f"]
          5).partIncludes ["f"] = some [⟨1, 10⟩] ∧
      (5 : Int) < 10 := by
  constructor
  · rfl
  · decide

theorem validateRanges_of_update {st : CoreState} {file : Path}
    {lineCount : Int} {ranges : List Range}
    (hc : lookupPI st.partIncludes file = some ranges)
    (hne : ranges.isEmpty = false)
    (hlen : ((ranges.filter (fun r => r.start ≤ lineCount)).length !=
      ranges.length) = true) :
    validateRanges st file lineCount =
      { st with
        partIncludes := setPI st.partIncludes file
          ((ranges.filter (fun r => r.start ≤ lineCount)).map
            (fun r => ⟨r.start, min r.«end» lineCount⟩)) } := by
  rw [validateRanges, hc]
  simp [hne, hlen]

/-- **C9, amended.** On a file-change notification, *provided at least one
stored range's start exceeds the file's current line count*, every range whose
start exceeds the line count is dropped and every surviving range's end is
clamped to the line count.  (When no range is dropped, the guard leaves even
over-long ends untouched — the counterexample.) -/
theorem validateRanges_amended (st : CoreState) (file : Path)
    (lineCount : Int) (ranges : List Range)
    (hc : lookupPI st.partIncludes file = some ranges)
    (hdrop : ∃ r ∈ ranges, lineCount < r.start) :
    lookupPI (validateRanges st file lineCount).partIncludes file =
      some ((ranges.filter (fun r => r.start ≤ lineCount)).map
        (fun r => ⟨r.start, min r.«end» lineCount⟩)) := by
  obtain ⟨r0, hr0, hr0s⟩ := hdrop
  have hne : ranges.isEmpty = false := by
    cases h : ranges.isEmpty
    · rfl
    · rw [List.isEmpty_iff.mp h] at hr0
      exact absurd hr0 (List.not_mem_nil r0)
  have hlt : (ranges.filter (fun r => r.start ≤ lineCount)).length <
      ranges.length := by
    apply List.length_filter_lt_length_iff_exists.mpr
    exact ⟨r0, hr0, by simp; omega⟩
  have hlen : ((ranges.filter (fun r => r.start ≤ lineCount)).length !=
      ranges.length) = true := by
    simp only [bne_iff_ne, ne_eq]
    omega
  rw [validateRanges_of_update hc hne hlen]
  exact lookupPI_setPI_self _ _ _

/-- Witness for the amended C9: stored ranges `[1,10]` and `[7,9]`, file
shrunk to 5 lines — `[7,9]` is dropped and `[1,10]` is clamped to `[1,5]`. -/
theorem validateRanges_amended_witness :
    (lookupPI (([(["f"], [⟨1, 10⟩, ⟨7, 9⟩])] :
          List (Path × List Range))) ["f"] = some [⟨1, 10⟩, ⟨7, 9⟩] ∧
        (∃ r ∈ [(⟨1, 10⟩ : Range), ⟨7, 9⟩], (5 : Int) < r.start)) ∧
      lookupPI
          (validateRanges ⟨[], [], [], [(["f"], [⟨1, 10⟩, ⟨7, 9⟩])]⟩ ["f"]
            5).partIncludes ["f"] = some [⟨1, 5⟩] := by
  refine ⟨⟨rfl, ⟨⟨7, 9⟩, by simp, by decide⟩⟩, ?_⟩
  have h := validateRanges_amended ⟨[], [], [], [(["f"], [⟨1, 10⟩, ⟨7, 9⟩])]⟩
    ["f"] 5 [⟨1, 10⟩, ⟨7, 9⟩] rfl ⟨⟨7, 9⟩, by simp, by decide⟩
  rw [h]
  rfl

/-- **C2, counterexample.** The claim says a file with a non-empty partial
selection is never visually excluded.  But for the auto-excluded file `/f`
with stored partial selection `[1,2]`, the newest `isPathVisuallyExcluded`
(which has no file-level partial check) returns `true`. -/
theorem visuallyExcluded_partial_counterexample :
    lookupPI
        (CoreState.mk [(["f"], false)] [] []
          [(["f"], [⟨1, 2⟩])]).partIncludes ["f"] = some [⟨1, 2⟩] ∧
      isPathVisuallyExcluded (fun _ => false)
        (CoreState.mk [(["f"], false)] [] [] [(["f"], [⟨1, 2⟩])])
        ["f"] = true := by
  constructor
  · rfl
  · rfl

/-- **C2, amended.** For a path that is not a directory (`statSync` reports a
file, or throws), `isPathVisuallyExcluded` coincides with
`isPathEffectivelyExcluded` even when the file has a non-empty partial
selection: a file's own partial selection does not suppress its exclusion
display; only descendant includes/partials suppress a *directory's*. -/
theorem visuallyExcluded_file_eq_effective (fsIsDir : Path → Bool)
    (st : CoreState) (p : Path) (hfile : fsIsDir p = false)
    (_hp : ∃ rs, lookupPI st.partIncludes p = some rs ∧ rs ≠ []) :
    isPathVisuallyExcluded fsIsDir st p = isPathEffectivelyExcluded st p := by
  rw [isPathVisuallyExcluded, hfile]
  cases he : isPathEffectivelyExcluded st p <;> simp

/-- Witness for the amended C2 at the counterexample's own input. -/
theorem visuallyExcluded_file_eq_effective_witness :
    (((fun _ => false) : Path → Bool) ["f"] = false ∧
      (∃ rs,
        lookupPI
            (CoreState.mk [(["f"], false)] [] []
              [(["f"], [⟨1, 2⟩])]).partIncludes ["f"] = some rs ∧
          rs ≠ [])) ∧
      isPathVisuallyExcluded (fun _ => false)
          (CoreState.mk [(["f"], false)] [] [] [(["f"], [⟨1, 2⟩])]) ["f"] =
        isPathEffectivelyExcluded
          (CoreState.mk [(["f"], false)] [] [] [(["f"], [⟨1, 2⟩])]) ["f"] :=
  ⟨⟨rfl, ⟨[⟨1, 2⟩], rfl, by simp⟩⟩,
    visuallyExcluded_file_eq_effective (fun _ => false)
      (CoreState.mk [(["f"], false)] [] [] [(["f"], [⟨1, 2⟩])]) ["f"] rfl
      ⟨[⟨1, 2⟩], rfl, by simp⟩⟩

theorem mem_getFlatStructure {fsIsDir : Path → Bool} {st : CoreState}
    {d : Path} {es : List FSEntry} {q : Path} :
    q ∈ getFlatStructure fsIsDir st d es ↔
      ∃ e ∈ es, q ∈ flatPiece fsIsDir st d e := by
  rw [getFlatStructure]
  simp only [List.mem_flatMap, List.mem_attach, true_and, Subtype.exists]
  constructor
  · rintro ⟨a, ha, hq⟩
    refine ⟨a, ?_, hq⟩
    simpa [sortEntries] using ha
  · rintro ⟨e, he, hq⟩
    refine ⟨e, ?_, hq⟩
    simpa [sortEntries] using he

theorem eff_cons_no_manual {st : CoreState} {x : String} {rest : Path}
    (h1 : memPath st.manualIncludes (x :: rest) = false)
    (h2 : memPath st.manualExcludes (x :: rest) = false)
    (h3 : isPathEffectivelyExcluded st rest = true) :
    isPathEffectivelyExcluded st (x :: rest) = true := by
  rw [isPathEffectivelyExcluded] at h3 ⊢
  simp only [checkManual, h1, h2, Bool.false_eq_true, if_false]
  cases hcm : checkManual st.manualIncludes st.manualExcludes rest with
  | some b =>
    rw [hcm] at h3
    simpa using h3
  | none =>
    rw [hcm] at h3
    simp only [checkAuto]
    simp only at h3
    rw [h3]
    simp

/-- A manual-include entry stored strictly below `d` would witness
`folderContainsManualIncludes d`; with none present, no strict descendant of
`d` is a member of `manualIncludes`. -/
theorem memPath_inc_under_false {st : CoreState} {d : Path} (hd : d ≠ [])
    (hinc : folderContainsManualIncludes st d = false) (t : List String)
    (ht : t ≠ []) : memPath st.manualIncludes (t ++ d) = false := by
  cases hm : memPath st.manualIncludes (t ++ d)
  · rfl
  · exfalso
    simp only [memPath, List.any_eq_true, beq_iff_eq] at hm
    obtain ⟨e, he, heq⟩ := hm
    have hsw : startsWithDirForm d e = true := by
      cases d with
      | nil => exact absurd rfl hd
      | cons y d' =>
        simp only [startsWithDirForm, Bool.or_eq_true, Bool.and_eq_true,
          Bool.not_eq_true', beq_eq_false_iff_ne, beq_iff_eq,
          List.isSuffixOf_iff_suffix]
        left
        constructor
        · intro hcontra
          have hlen := congrArg List.length (heq.symm.trans hcontra)
          simp only [List.length_append] at hlen
          cases t with
          | nil => exact ht rfl
          | cons a t => simp at hlen
        · rw [heq]
          exact List.suffix_append t (y :: d')
    have hcontains : folderContainsManualIncludes st d = true := by
      simp only [folderContainsManualIncludes, List.any_eq_true]
      exact ⟨e, he, hsw⟩
    rw [hcontains] at hinc
    exact absurd hinc (by simp)

/-- Effective exclusion is inherited by all descendants of an effectively
excluded directory carrying no manual include beneath it: the walk below `d`
can only meet exclude rules, and at `d` it continues exactly as `d`'s own
walk. -/
theorem eff_inherit (st : CoreState) (d : Path) (hd : d ≠ [])
    (heff : isPathEffectivelyExcluded st d = true)
    (hinc : folderContainsManualIncludes st d = false) :
    ∀ t : List String, isPathEffectivelyExcluded st (t ++ d) = true := by
  intro t
  induction t with
  | nil => simpa using heff
  | cons x t ih =>
    have hq : memPath st.manualIncludes ((x :: t) ++ d) = false :=
      memPath_inc_under_false hd hinc (x :: t) (by simp)
    rw [List.cons_append] at hq ⊢
    cases hexcq : memPath st.manualExcludes (x :: (t ++ d)) with
    | true => exact eff_of_memExc hq hexcq
    | false => exact eff_cons_no_manual hq hexcq ih

theorem startsWithDirForm_of_extend {d : Path} (hd : d ≠ [])
    {t : List String} (ht : t ≠ []) {e : Entry}
    (h : startsWithDirForm (t ++ d) e = true) :
    startsWithDirForm d e = true := by
  obtain ⟨a, t', rfl⟩ : ∃ a t', t = a :: t' := by
    cases t with
    | nil => exact absurd rfl ht
    | cons a t' => exact ⟨a, t', rfl⟩
  obtain ⟨y, d', rfl⟩ : ∃ y d', d = y :: d' := by
    cases d with
    | nil => exact absurd rfl hd
    | cons y d' => exact ⟨y, d', rfl⟩
  rw [List.cons_append] at h
  simp only [startsWithDirForm, Bool.or_eq_true, Bool.and_eq_true,
    Bool.not_eq_true', beq_eq_false_iff_ne, beq_iff_eq,
    List.isSuffixOf_iff_suffix] at h ⊢
  rcases h with ⟨hne, hsuf⟩ | ⟨heq, hflag⟩
  · left
    constructor
    · intro hcontra
      obtain ⟨u, hu⟩ := hsuf
      rw [hcontra] at hu
      have hlen := congrArg List.length hu
      simp only [List.length_append, List.length_cons] at hlen
      omega
    · exact (List.suffix_append (a :: t') (y :: d')).trans hsuf
  · left
    constructor
    · intro hcontra
      have hlen := congrArg List.length (heq.symm.trans hcontra)
      simp only [List.length_append, List.length_cons] at hlen
      omega
    · rw [heq, ← List.cons_append]
      exact List.suffix_append (a :: t') (y :: d')

theorem startsWithDirFormKey_of_extend {d : Path} (hd : d ≠ [])
    {t : List String} (ht : t ≠ []) {k : Path}
    (h : startsWithDirFormKey (t ++ d) k = true) :
    startsWithDirFormKey d k = true := by
  obtain ⟨a, t', rfl⟩ : ∃ a t', t = a :: t' := by
    cases t with
    | nil => exact absurd rfl ht
    | cons a t' => exact ⟨a, t', rfl⟩
  obtain ⟨y, d', rfl⟩ : ∃ y d', d = y :: d' := by
    cases d with
    | nil => exact absurd rfl hd
    | cons y d' => exact ⟨y, d', rfl⟩
  rw [List.cons_append] at h
  simp only [startsWithDirFormKey, Bool.and_eq_true, Bool.not_eq_true',
    beq_eq_false_iff_ne, List.isSuffixOf_iff_suffix] at h ⊢
  obtain ⟨hne, hsuf⟩ := h
  constructor
  · intro hcontra
    obtain ⟨u, hu⟩ := hsuf
    rw [hcontra] at hu
    have hlen := congrArg List.length hu
    simp only [List.length_append, List.length_cons] at hlen
    omega
  · exact (List.suffix_append (a :: t') (y :: d')).trans hsuf

theorem folderContains_inc_under {st : CoreState} {d : Path} (hd : d ≠ [])
    (hinc : folderContainsManualIncludes st d = false) (t : List String)
    (ht : t ≠ []) : folderContainsManualIncludes st (t ++ d) = false := by
  cases h : folderContainsManualIncludes st (t ++ d)
  · rfl
  · exfalso
    simp only [folderContainsManualIncludes, List.any_eq_true] at h
    obtain ⟨e, he, hsw⟩ := h
    have : folderContainsManualIncludes st d = true := by
      simp only [folderContainsManualIncludes, List.any_eq_true]
      exact ⟨e, he, startsWithDirForm_of_extend hd ht hsw⟩
    rw [this] at hinc
    exact absurd hinc (by simp)

theorem folderContains_part_under {st : CoreState} {d : Path} (hd : d ≠ [])
    (hpart : folderContainsPartIncludes st d = false) (t : List String)
    (ht : t ≠ []) : folderContainsPartIncludes st (t ++ d) = false := by
  cases h : folderContainsPartIncludes st (t ++ d)
  · rfl
  · exfalso
    simp only [folderContainsPartIncludes, List.any_eq_true] at h
    obtain ⟨kv, hkv, hsw⟩ := h
    have : folderContainsPartIncludes st d = true := by
      simp only [folderContainsPartIncludes, List.any_eq_true]
      exact ⟨kv, hkv, startsWithDirFormKey_of_extend hd ht hsw⟩
    rw [this] at hpart
    exact absurd hpart (by simp)

theorem vis_true_eff {fsIsDir : Path → Bool} {st : CoreState} {p : Path}
    (h : isPathVisuallyExcluded fsIsDir st p = true) :
    isPathEffectivelyExcluded st p = true := by
  rw [isPathVisuallyExcluded] at h
  cases he : isPathEffectivelyExcluded st p
  · rw [he] at h
    simp at h
  · rfl

/-- A directory that is effectively excluded with no manual include and no
partial selection beneath it passes visual exclusion on to every strict
descendant, whatever the filesystem oracle says about the descendant. -/
theorem vis_inherit (fsIsDir : Path → Bool) (st : CoreState) (d : Path)
    (hd : d ≠ []) (heff : isPathEffectivelyExcluded st d = true)
    (hinc : folderContainsManualIncludes st d = false)
    (hpart : folderContainsPartIncludes st d = false) (t : List String)
    (ht : t ≠ []) : isPathVisuallyExcluded fsIsDir st (t ++ d) = true := by
  have he : isPathEffectivelyExcluded st (t ++ d) = true :=
    eff_inherit st d hd heff hinc t
  rw [isPathVisuallyExcluded, he]
  rw [folderContains_inc_under hd hinc t ht,
    folderContains_part_under hd hpart t ht]
  simp

theorem mem_pathsUnderList {es : List FSEntry} {d q : Path} :
    q ∈ pathsUnderList es d ↔ ∃ e ∈ es, q ∈ pathsUnderEntry e d := by
  induction es with
  | nil => simp [pathsUnderList]
  | cons e es ih =>
    rw [pathsUnderList]
    simp only [List.mem_append, List.mem_cons, ih]
    constructor
    · rintro (h | ⟨e', he', hq⟩)
      · exact ⟨e, Or.inl rfl, h⟩
      · exact ⟨e', Or.inr he', hq⟩
    · rintro ⟨e', rfl | he', hq⟩
      · exact Or.inl hq
      · exact Or.inr ⟨e', he', hq⟩

/-- Every tree path below directory `d` is a strict extension of `d`. -/
theorem paths_shape (N : Nat) :
    (∀ (e : FSEntry), sizeOf e ≤ N → ∀ (d q : Path),
      q ∈ pathsUnderEntry e d → ∃ t, t ≠ [] ∧ q = t ++ d) ∧
    (∀ (es : List FSEntry), sizeOf es ≤ N → ∀ (d q : Path),
      q ∈ pathsUnderList es d → ∃ t, t ≠ [] ∧ q = t ++ d) := by
  induction N with
  | zero =>
    constructor
    · intro e he
      exfalso
      cases e <;> simp at he
    · intro es hes
      exfalso
      cases es <;> simp at hes
  | succ n ih =>
    constructor
    · intro e he d q hq
      cases e with
      | file nm =>
        rw [pathsUnderEntry] at hq
        simp only [List.mem_singleton] at hq
        subst hq
        exact ⟨[nm], by simp, rfl⟩
      | dir nm cs =>
        rw [pathsUnderEntry] at hq
        rcases List.mem_cons.mp hq with rfl | hq
        · exact ⟨[nm], by simp, rfl⟩
        · have hcs : sizeOf cs ≤ n := by
            simp only [FSEntry.dir.sizeOf_spec] at he
            omega
          obtain ⟨t, ht, rfl⟩ := ih.2 cs hcs (nm :: d) q hq
          exact ⟨t ++ [nm], by simp, by simp⟩
    · intro es hes d q hq
      cases es with
      | nil =>
        rw [pathsUnderList] at hq
        exact absurd hq (List.not_mem_nil q)
      | cons e es' =>
        rw [pathsUnderList] at hq
        simp only [List.cons.sizeOf_spec] at hes
        rcases List.mem_append.mp hq with hq | hq
        · exact ih.1 e (by omega) d q hq
        · exact ih.2 es' (by omega) d q hq

/-- Soundness half of C3: every path the structure walk appends is not
visually excluded, since each push site checks exactly that path's visual
verdict. -/
theorem flat_sound (fsIsDir : Path → Bool) (st : CoreState) (N : Nat) :
    ∀ (es : List FSEntry), sizeOf es ≤ N → ∀ (d q : Path),
      q ∈ getFlatStructure fsIsDir st d es →
      isPathVisuallyExcluded fsIsDir st q = false := by
  induction N with
  | zero =>
    intro es hes
    exfalso
    cases es <;> simp at hes
  | succ n ih =>
    intro es hes d q hq
    rw [mem_getFlatStructure] at hq
    obtain ⟨e, he, hq⟩ := hq
    have hesize := List.sizeOf_lt_of_mem he
    cases e with
    | file nm =>
      rw [flatPiece] at hq
      cases hv : isPathVisuallyExcluded fsIsDir st (nm :: d) with
      | true => simp [hv] at hq
      | false =>
        simp only [hv, Bool.false_eq_true, if_false, List.mem_singleton] at hq
        subst hq
        exact hv
    | dir nm cs =>
      rw [flatPiece] at hq
      have hcs : sizeOf cs ≤ n := by
        simp only [FSEntry.dir.sizeOf_spec] at hesize
        omega
      rcases List.mem_append.mp hq with hq | hq
      · cases hv : isPathVisuallyExcluded fsIsDir st (nm :: d) with
        | true => simp [hv] at hq
        | false =>
          simp only [hv, Bool.not_false, if_true, List.mem_singleton] at hq
          subst hq
          exact hv
      · by_cases hcond : (!(isPathVisuallyExcluded fsIsDir st (nm :: d)) ||
            folderContainsManualIncludes st (nm :: d) ||
            folderContainsPartIncludes st (nm :: d)) = true
        · rw [if_pos hcond] at hq
          exact ih cs hcs (nm :: d) q hq
        · rw [if_neg hcond] at hq
          exact absurd hq (List.not_mem_nil q)

/-- Completeness half of C3: every tree path that is not visually excluded is
appended by the structure walk — an ancestor blocking the descent would force
the path to be visually excluded by inheritance. -/
theorem flat_complete (fsIsDir : Path → Bool) (st : CoreState) (N : Nat) :
    ∀ (es : List FSEntry), sizeOf es ≤ N → ∀ (d q : Path),
      q ∈ pathsUnderList es d →
      isPathVisuallyExcluded fsIsDir st q = false →
      q ∈ getFlatStructure fsIsDir st d es := by
  induction N with
  | zero =>
    intro es hes
    exfalso
    cases es <;> simp at hes
  | succ n ih =>
    intro es hes d q hpath hvis
    obtain ⟨e, he, hqe⟩ := mem_pathsUnderList.mp hpath
    rw [mem_getFlatStructure]
    refine ⟨e, he, ?_⟩
    have hesize := List.sizeOf_lt_of_mem he
    cases e with
    | file nm =>
      rw [pathsUnderEntry] at hqe
      simp only [List.mem_singleton] at hqe
      subst hqe
      rw [flatPiece, hvis]
      simp
    | dir nm cs =>
      have hcs : sizeOf cs ≤ n := by
        simp only [FSEntry.dir.sizeOf_spec] at hesize
        omega
      rw [pathsUnderEntry] at hqe
      rcases List.mem_cons.mp hqe with rfl | hqe
      · rw [flatPiece]
        apply List.mem_append.mpr
        left
        rw [hvis]
        simp
      · rw [flatPiece]
        apply List.mem_append.mpr
        right
        cases hvb : isPathVisuallyExcluded fsIsDir st (nm :: d) with
        | false =>
          rw [if_pos (by simp)]
          exact ih cs hcs (nm :: d) q hqe hvis
        | true =>
          cases hib : folderContainsManualIncludes st (nm :: d) with
          | true =>
            rw [if_pos (by simp)]
            exact ih cs hcs (nm :: d) q hqe hvis
          | false =>
            cases hpb : folderContainsPartIncludes st (nm :: d) with
            | true =>
              rw [if_pos (by simp)]
              exact ih cs hcs (nm :: d) q hqe hvis
            | false =>
              exfalso
              obtain ⟨t, ht, rfl⟩ :=
                (paths_shape (sizeOf cs)).2 cs (le_refl _) (nm :: d) q hqe
              have hv :=
                vis_inherit fsIsDir st (nm :: d) (by simp)
                  (vis_true_eff hvb) hib hpb t ht
              rw [hv] at hvis
              exact absurd hvis (by simp)

/-- **C3.** For a fixed rule-set snapshot and directory tree, a path of the
tree appears in the structure listing produced by the report generator iff it
is not visually excluded: every listed path satisfies
`isPathVisuallyExcluded = false`, and every tree path absent from the listing
satisfies `isPathVisuallyExcluded = true`. -/
theorem structure_visibility_consistency (fsIsDir : Path → Bool)
    (st : CoreState) (root : List FSEntry) (q : Path)
    (hq : q ∈ pathsUnderList root []) :
    q ∈ getFlatStructure fsIsDir st [] root ↔
      isPathVisuallyExcluded fsIsDir st q = false :=
  ⟨fun h => flat_sound fsIsDir st (sizeOf root) root (le_refl _) [] q h,
    fun h => flat_complete fsIsDir st (sizeOf root) root (le_refl _) [] q hq h⟩

/-- Witness for C3 on a concrete tree: `/a/f` with directory `a` manually
excluded and file `f` manually included beneath it; `a/f` is listed while
`a/g` is not. -/
theorem structure_visibility_consistency_witness :
    (["f", "a"] ∈ pathsUnderList
        [FSEntry.dir "a" [FSEntry.file "f", FSEntry.file "g"]] [] ∧
      ["g", "a"] ∈ pathsUnderList
        [FSEntry.dir "a" [FSEntry.file "f", FSEntry.file "g"]] []) ∧
      ((["f", "a"] ∈ getFlatStructure (fun p => p == ["a"])
          (CoreState.mk [] [(["f", "a"], false)] [(["a"], true)] []) []
          [FSEntry.dir "a" [FSEntry.file "f", FSEntry.file "g"]] ↔
        isPathVisuallyExcluded (fun p => p == ["a"])
          (CoreState.mk [] [(["f", "a"], false)] [(["a"], true)] [])
          ["f", "a"] = false) ∧
      (["g", "a"] ∈ getFlatStructure (fun p => p == ["a"])
          (CoreState.mk [] [(["f", "a"], false)] [(["a"], true)] []) []
          [FSEntry.dir "a" [FSEntry.file "f", FSEntry.file "g"]] ↔
        isPathVisuallyExcluded (fun p => p == ["a"])
          (CoreState.mk [] [(["f", "a"], false)] [(["a"], true)] [])
          ["g", "a"] = false)) := by
  refine ⟨⟨?_, ?_⟩, ?_, ?_⟩
  · simp [pathsUnderList, pathsUnderEntry]
  · simp [pathsUnderList, pathsUnderEntry]
  · exact structure_visibility_consistency _ _ _ _
      (by simp [pathsUnderList, pathsUnderEntry])
  · exact structure_visibility_consistency _ _ _ _
      (by simp [pathsUnderList, pathsUnderEntry])

end Repotxt

